import Mathlib

/-!
Verification development for the tarot-reading bot (`src/index.js`).
The JavaScript program is shallowly embedded: sheet fetches become
`Option`-valued inputs, `Math.random` becomes explicit streams of picks
and coin flips, and the mutable `TarotBot` state is threaded explicitly.
-/

namespace Tarot

/-- A card loaded from the Cards sheet (`loadCards`). -/
structure Card where
  id : Nat
  name : String
  ctype : String
  meaning : String
  imageId : Option String
deriving DecidableEq, Repr

/-- A drawn card: a card plus its orientation string, as produced by
`selectRandomCards` (`{...card, position: isReversed ? '逆位置' : '正位置'}`). -/
structure DrawnCard where
  card : Card
  position : String
deriving DecidableEq, Repr

/-- One slot of a reading: `{position, card: selectedCards[index]}`;
the card is `none` when the index is beyond the drawn sequence
(JavaScript `undefined`). -/
structure ReadingSlot where
  position : String
  card : Option DrawnCard
deriving DecidableEq, Repr

/-- The reading record assembled by `performReading`. -/
structure Reading where
  spread : String
  question : String
  userId : String
  results : List ReadingSlot
  timestamp : Nat
deriving DecidableEq, Repr

/-- In-memory bot state: `this.cards` and `this.spreads` (an object,
modelled as an association list whose keys are unique). -/
structure BotState where
  cards : List Card
  spreads : List (String × List String)
deriving DecidableEq, Repr

/-- JavaScript `map((x, index) => ...)`, index starting at `k`. -/
def mapWithIndexFrom (f : Nat → α → β) (k : Nat) : List α → List β
  | [] => []
  | a :: as => f k a :: mapWithIndexFrom f (k + 1) as

/-- JavaScript `Array.prototype.map` with the element index. -/
def mapWithIndex (f : Nat → α → β) (l : List α) : List β :=
  mapWithIndexFrom f 0 l

/-- The selection loop of `selectRandomCards`: at step `i` it removes the
card at index `pick i % pool.length` from the working pool (`splice`) and
flips a coin `flip i` for the orientation. -/
def selectGo (pool : List Card) (count i : Nat)
    (pick : Nat → Nat) (flip : Nat → Bool) : List DrawnCard :=
  match count, pool with
  | 0, _ => []
  | _ + 1, [] => []
  | c + 1, p :: ps =>
    let pl := p :: ps
    let idx := pick i % pl.length
    let chosen := pl.getD idx p
    ⟨chosen, if flip i then "逆位置" else "正位置"⟩ ::
      selectGo (pl.eraseIdx idx) c (i + 1) pick flip

/-- `selectRandomCards(count)`: draws from a copy of the card list,
without replacement. -/
def selectRandomCards (cards : List Card) (count : Nat)
    (pick : Nat → Nat) (flip : Nat → Bool) : List DrawnCard :=
  selectGo cards count 0 pick flip

/-- `selectRandomCards` as the method on the bot state: it reads
`this.cards` into a fresh array (`[...this.cards]`) and never writes
back, so the state component of the result is the input state. -/
def selectRandomCardsS (s : BotState) (count : Nat)
    (pick : Nat → Nat) (flip : Nat → Bool) : List DrawnCard × BotState :=
  let availableCards := s.cards
  (selectGo availableCards count 0 pick flip, s)

/-- One data row of the Readings sheet:
`[timestamp, userId, question, spread, resultText]`. The timestamp is
modelled as a natural number (ISO strings compare like their instants). -/
structure RRow where
  ts : Nat
  userId : String
  question : String
  spread : String
  result : String
deriving DecidableEq, Repr

/-- JavaScript object key lookup (`this.spreads[name]`). -/
def objGet (m : List (String × List String)) (k : String) : Option (List String) :=
  match m with
  | [] => none
  | (k2, v) :: rest => if k2 = k then some v else objGet rest k

/-- JavaScript object key assignment (`this.spreads[name] = positions`):
replaces an existing binding, otherwise appends. -/
def objSet (m : List (String × List String)) (k : String) (v : List String) :
    List (String × List String) :=
  match m with
  | [] => [(k, v)]
  | (k2, v2) :: rest =>
    if k2 = k then (k, v) :: rest else (k2, v2) :: objSet rest k v

/-- The result summary built inside `saveReading`'s `try` block:
`position:name(orientation)` joined by `', '`. Accessing a missing card
(`undefined`) throws inside the `try`, which the `catch` swallows, so the
summary is `none` exactly when some slot has no card. -/
def summaryOf (results : List ReadingSlot) : Option String :=
  if results.all (fun r => r.card.isSome) then
    some (String.intercalate ", " (results.map (fun r =>
      r.position ++ ":" ++
        ((r.card.map (fun d => d.card.name ++ "(" ++ d.position ++ ")")).getD ""))))
  else none

/-- `saveReading`: appends the flattened row to the Readings sheet; any
failure (append rejected, or the summary construction throwing) is caught
and logged, leaving the sheet unchanged. `appendOk` models whether the
external append succeeds. -/
def saveReading (reading : Reading) (appendOk : Bool) (store : List RRow) :
    List RRow :=
  match summaryOf reading.results with
  | none => store
  | some text =>
    if appendOk then
      store ++ [⟨reading.timestamp, reading.userId, reading.question,
        reading.spread, text⟩]
    else store

/-- `performReading(spreadName, question, userId)`: `null` for an unknown
spread; otherwise draws `positions.length` cards, zips labels with drawn
cards by index, stamps the time, and awaits `saveReading` before
returning the assembled reading together with the post-save sheet. -/
def performReading (s : BotState) (spreadName question userId : String)
    (pick : Nat → Nat) (flip : Nat → Bool) (now : Nat)
    (appendOk : Bool) (store : List RRow) : Option Reading × List RRow :=
  match objGet s.spreads spreadName with
  | none => (none, store)
  | some positions =>
    let selectedCards := selectRandomCards s.cards positions.length pick flip
    let reading : Reading :=
      { spread := spreadName
        question := question
        userId := userId
        results := mapWithIndex
          (fun index position => ⟨position, selectedCards[index]?⟩) positions
        timestamp := now }
    (some reading, saveReading reading appendOk store)

/-- The reading value assembled by `performReading` for a known spread. -/
def assembledReading (s : BotState) (spreadName question userId : String)
    (pick : Nat → Nat) (flip : Nat → Bool) (now : Nat)
    (positions : List String) : Reading :=
  { spread := spreadName
    question := question
    userId := userId
    results := mapWithIndex
      (fun index position =>
        ⟨position, (selectRandomCards s.cards positions.length pick flip)[index]?⟩)
      positions
    timestamp := now }

/-- JavaScript `Array.prototype.sort` with comparator
`(a, b) => new Date(b[0]) - new Date(a[0])`: insertion of one row into a
descending-by-timestamp list. -/
def insertDesc (r : RRow) : List RRow → List RRow
  | [] => [r]
  | x :: xs => if x.ts < r.ts then r :: x :: xs else x :: insertDesc r xs

/-- Sort rows by timestamp, newest first. -/
def sortDesc : List RRow → List RRow
  | [] => []
  | x :: xs => insertDesc x (sortDesc xs)

/-- `getReadingHistory(userId, limit)`: fetches the Readings sheet
(`none` models a fetch error, which returns `[]`), drops the header row,
keeps the requesting user's rows, sorts newest first and truncates to
`limit`. -/
def getReadingHistory (fetch : Option (List RRow)) (userId : String)
    (limit : Nat) : List RRow :=
  match fetch with
  | none => []
  | some rows =>
    if rows.length ≤ 1 then []
    else
      ((sortDesc ((rows.drop 1).filter (fun row => row.userId = userId))).take
        limit)

/-- `formatHistory`'s spread display names. -/
def historySpreadNames : List (String × String) :=
  [("celt", "ケルト十字"), ("three", "スリーカード"), ("one", "ワンカード"),
   ("kantan", "かんたん"), ("nitaku", "二択"), ("horse", "ホースシュー")]

/-- `spreadNames[key] || key`. -/
def displayNameIn (table : List (String × String)) (key : String) : String :=
  match table.lookup key with
  | some v => v
  | none => key

/-- The locale-rendered date of a history row (`toLocaleString('ja-JP')`);
modelled as an opaque rendering of the timestamp. -/
def localeDate (ts : Nat) : String :=
  toString ts

/-- `formatHistory(history)`: a distinct empty-history message for an
empty list, otherwise a numbered, newest-first listing. -/
def formatHistory (history : List RRow) : String :=
  if history.length = 0 then "📋 **占い履歴**\n\n履歴がありません。"
  else
    "📋 **占い履歴**（最新" ++ toString history.length ++ "件）\n\n" ++
      String.join (mapWithIndex (fun index record =>
        "**" ++ toString (index + 1) ++ ".** " ++ localeDate record.ts ++ "\n" ++
          "　" ++ displayNameIn historySpreadNames record.spread ++ " - " ++
          record.question ++ "\n\n") history)

/-- `formatReading`'s spread display names. -/
def readingSpreadNames : List (String × String) :=
  [("celt", "ケルト十字スプレッド"), ("three", "スリーカード"),
   ("one", "ワンカード"), ("kantan", "かんたんスプレッド"),
   ("nitaku", "二択スプレッド"), ("horse", "ホースシュースプレッド")]

/-- One generic slot block:
`**position**: name（orientation）\n　└ *meaning*\n\n`. -/
def slotBlock (r : ReadingSlot) : Option String :=
  (r.card.map (fun d =>
    "**" ++ r.position ++ "**: " ++ d.card.name ++ "（" ++ d.position ++
      "）\n　└ *" ++ d.card.meaning ++ "*\n\n"))

/-- The header line shared by both branches of `formatReading`. -/
def readingHeader (reading : Reading) : String :=
  "🔮 **" ++ displayNameIn readingSpreadNames reading.spread ++ "** - " ++
    reading.question ++ "\n\n"

/-- The generic (`else`) branch of `formatReading`: iterate the slots in
order with their stored labels. `none` when a slot's card is missing
(JavaScript would throw on `undefined.name`). -/
def genericFormat (reading : Reading) : Option String :=
  if reading.results.all (fun r => r.card.isSome) then
    some (readingHeader reading ++
      String.join (reading.results.map (fun r => (slotBlock r).getD "")) ++
      "質問: " ++ reading.question)
  else none

/-- The fixed role headings of the `horse` branch, in index order. -/
def horseHeadings : List String :=
  ["📅 過去", "🕐 現在", "🔮 近未来", "💡 アドバイス",
   "👥 周囲（相手）の状況", "⚠️ 障害", "🎯 最終予想"]

/-- One block of the `horse` branch:
`**heading**\nname（orientation）\n　└ *meaning*\n\n` for slot `i`. -/
def horseBlock (reading : Reading) (i : Nat) (heading : String) :
    Option String :=
  ((reading.results[i]?.bind (fun r => r.card)).map (fun d =>
    "**" ++ heading ++ "**\n" ++ d.card.name ++ "（" ++ d.position ++
      "）\n　└ *" ++ d.card.meaning ++ "*\n\n"))

/-- The `horse` branch of `formatReading`: seven role-specific headings
addressed by index 0–6. `none` when any of the accesses would throw. -/
def horseFormat (reading : Reading) : Option String :=
  if (mapWithIndex (fun i h => horseBlock reading i h) horseHeadings).all
      (fun b => b.isSome) then
    some (readingHeader reading ++
      String.join ((mapWithIndex (fun i h => horseBlock reading i h)
        horseHeadings).map (fun b => b.getD "")) ++
      "質問: " ++ reading.question)
  else none

/-- `formatReading(reading)`: the `horse` spread gets the role-specific
headings; every other spread uses the generic per-slot rendering. -/
def formatReading (reading : Reading) : Option String :=
  if reading.spread = "horse" then horseFormat reading
  else genericFormat reading

/-- One fetched row of the Cards sheet (`Cards!A:E`), already split into
its five cells; `meaning`/`imageId` are `none` for blank cells. The
header row is index 0. -/
structure CardRow where
  id : Nat
  name : String
  ctype : String
  meaning : Option String
  imageId : Option String
deriving DecidableEq, Repr

/-- `row => ({id, name, type, meaning: row[3] || 'カードの意味', imageId: row[4] || null})`. -/
def parseCard (r : CardRow) : Card :=
  ⟨r.id, r.name, r.ctype, r.meaning.getD "カードの意味", r.imageId⟩

/-- `loadCards()`: on a successful fetch with more than the header row,
replaces `this.cards` and returns `true`; on a fetch error (`none`) or a
header-only response, returns `false` and leaves the state alone. -/
def loadCards (fetch : Option (List CardRow)) (s : BotState) :
    BotState × Bool :=
  match fetch with
  | none => (s, false)
  | some rows =>
    if 1 < rows.length then
      ({ s with cards := (rows.drop 1).map parseCard }, true)
    else (s, false)

/-- One fetched row of the Spreads sheet: the spread key and the
remaining cells (`row.slice(1)`). -/
structure SpreadRow where
  name : String
  positions : List String
deriving DecidableEq, Repr

/-- `loadSpreads()`: on success it assigns each fetched row into
`this.spreads` (an object merge — existing keys not in the fetch
survive); blank position cells are filtered out. On failure it leaves
the state alone and returns `false`. -/
def loadSpreads (fetch : Option (List SpreadRow)) (s : BotState) :
    BotState × Bool :=
  match fetch with
  | none => (s, false)
  | some rows =>
    if 1 < rows.length then
      ({ s with spreads := (rows.drop 1).foldl (fun m r =>
          objSet m r.name (r.positions.filter (fun pos => pos.trim ≠ ""))) s.spreads },
        true)
    else (s, false)

/-! ### Spread-image layout (`generateSpreadImage`) -/

/-- `Math.ceil(cardCount / 5)` for a natural card count. -/
def layoutRows (cardCount : Nat) : Nat :=
  (cardCount + 4) / 5

/-- `Math.min(cardCount, 5)`. -/
def layoutMaxCols (cardCount : Nat) : Nat :=
  min cardCount 5

/-- `MARGIN_X * 2 + maxCols * CARD_SPACING_X`. -/
def layoutCanvasWidth (cardCount : Nat) : Int :=
  70 * 2 + (layoutMaxCols cardCount : Int) * 140

/-- `TOP_MARGIN + ((rows - 1) * CARD_SPACING_Y + CARD_HEIGHT) + BOTTOM_MARGIN`. -/
def layoutCanvasHeight (cardCount : Nat) : Int :=
  300 + (((layoutRows cardCount : Int) - 1) * 280 + 200) + 60

/-- `Math.min(cardCount - row * 5, 5)`: the number of cards in a row. -/
def layoutCardsInRow (cardCount row : Nat) : Nat :=
  min (cardCount - row * 5) 5

/-- The x-coordinate of card `i`:
`(canvasWidth - (cardsInThisRow - 1) * CARD_SPACING_X) / 2 + col * CARD_SPACING_X`. -/
def layoutCardX (cardCount i : Nat) : Int :=
  (layoutCanvasWidth cardCount -
      ((layoutCardsInRow cardCount (i / 5) : Int) - 1) * 140) / 2 +
    (i % 5 : Int) * 140

/-- The y-coordinate of card `i`: `TOP_MARGIN + row * CARD_SPACING_Y`. -/
def layoutCardY (i : Nat) : Int :=
  300 + (i / 5 : Int) * 280

/-! ### Command-router reply chunking (`messageCreate`, reading branch) -/

/-- A transport message: its text (as a character list) and whether the
spread image is attached to it. -/
structure Msg where
  content : List Char
  hasImage : Bool
deriving DecidableEq, Repr

/-- JavaScript `formattedResult.split('\n')`. -/
def splitOnNl (s : List Char) : List (List Char) :=
  match s with
  | [] => [[]]
  | c :: rest =>
    let r := splitOnNl rest
    if c = '\n' then [] :: r
    else
      match r with
      | [] => [[c]]
      | h :: t => (c :: h) :: t

/-- The chunking loop: flush the accumulated chunk (attaching the image
to the very first flush) whenever appending the next line would push it
past 1900 characters; after the loop, send the remainder unless it is
whitespace-only (`currentMessage.trim()`), always without the image. -/
def chunkLines (lines : List (List Char)) (cur : List Char)
    (first : Bool) : List Msg :=
  match lines with
  | [] =>
    if cur.any (fun c => !c.isWhitespace) then [⟨cur, false⟩] else []
  | line :: rest =>
    if 1900 < cur.length + line.length then
      ⟨cur, first⟩ :: chunkLines rest (line ++ ['\n']) false
    else chunkLines rest (cur ++ line ++ ['\n']) first

/-- The reading branch of the command router once the image buffer is
available: replies in one message when the text fits, otherwise splits
on line boundaries. -/
def routeReading (text : List Char) : List Msg :=
  if 2000 < text.length then chunkLines (splitOnNl text) [] true
  else [⟨text, true⟩]

/-- The per-line payload of a chunking run: each line costs its length
plus the appended newline. -/
def totalLen (lines : List (List Char)) : Nat :=
  (lines.map (fun l => l.length + 1)).sum

/-! ### Concrete inputs used by witnesses and counterexamples -/

/-- A small two-card catalog. -/
def wCards : List Card :=
  [⟨0, "愚者", "大アルカナ", "新しい始まり", none⟩,
   ⟨1, "魔術師", "大アルカナ", "創造力", none⟩]

/-- A small bot state with two spreads. -/
def wState : BotState :=
  ⟨wCards, [("one", ["現状"]), ("three", ["過去", "現在", "未来"])]⟩

/-- A 1000-character line. -/
def lineA : List Char := List.replicate 1000 'a'

/-- An 899-character line. -/
def lineB : List Char := List.replicate 899 'b'

/-- A 200-character line. -/
def lineC : List Char := List.replicate 200 'c'

/-- A 2101-character formatted reading: three lines of 1000, 899 and 200
characters. -/
def c5text : List Char := lineA ++ '\n' :: (lineB ++ '\n' :: lineC)

/-- A one-card, one-spread state prior to a catalog load attempt. -/
def c4State : BotState :=
  ⟨[⟨1, "旧カード", "大アルカナ", "旧意味", none⟩], [("one", ["現状"])]⟩

/-- A successful Cards fetch: a header row and one data row. -/
def c4CardsFetch : Option (List CardRow) :=
  some [⟨0, "id", "name", none, none⟩, ⟨2, "新カード", "大アルカナ", some "新意味", none⟩]

/-- Builds the drawn-card slots of a concrete reading. -/
def mkSlot (label : String) (c : Card) (pos : String) : ReadingSlot :=
  ⟨label, some ⟨c, pos⟩⟩

/-- An eight-slot reading of the `nitaku` (two-option comparison)
spread. -/
def nitakuReading : Reading :=
  { spread := "nitaku"
    question := "AとBどちらが良い？"
    userId := "u1"
    results :=
      [mkSlot "現状" ⟨0, "愚者", "大", "m0", none⟩ "正位置",
       mkSlot "A選択肢" ⟨1, "魔術師", "大", "m1", none⟩ "逆位置",
       mkSlot "A結果" ⟨2, "女教皇", "大", "m2", none⟩ "正位置",
       mkSlot "B選択肢" ⟨3, "女帝", "大", "m3", none⟩ "正位置",
       mkSlot "B結果" ⟨4, "皇帝", "大", "m4", none⟩ "逆位置",
       mkSlot "アドバイス" ⟨5, "法王", "大", "m5", none⟩ "正位置",
       mkSlot "障害" ⟨6, "恋人", "大", "m6", none⟩ "正位置",
       mkSlot "最終結果" ⟨7, "戦車", "大", "m7", none⟩ "正位置"]
    timestamp := 1 }

/-- A seven-slot reading of the `horse` spread. -/
def horseReading : Reading :=
  { spread := "horse"
    question := "今後の流れは？"
    userId := "u1"
    results :=
      [mkSlot "過去" ⟨0, "愚者", "大", "m0", none⟩ "正位置",
       mkSlot "現在" ⟨1, "魔術師", "大", "m1", none⟩ "逆位置",
       mkSlot "近未来" ⟨2, "女教皇", "大", "m2", none⟩ "正位置",
       mkSlot "アドバイス" ⟨3, "女帝", "大", "m3", none⟩ "正位置",
       mkSlot "周囲" ⟨4, "皇帝", "大", "m4", none⟩ "逆位置",
       mkSlot "障害" ⟨5, "法王", "大", "m5", none⟩ "正位置",
       mkSlot "結果" ⟨6, "恋人", "大", "m6", none⟩ "正位置"]
    timestamp := 2 }

/-- A Readings-sheet header row. -/
def headerRow : RRow :=
  ⟨0, "userId", "question", "spread", "result"⟩

/-- Two existing history rows for two users. -/
def c6Store : List RRow :=
  [⟨3, "u1", "q1", "one", "r1"⟩, ⟨5, "u2", "q2", "three", "r2"⟩]

/-! ## Helper lemmas -/

theorem length_mapWithIndexFrom (f : Nat → α → β) (k : Nat) (l : List α) :
    (mapWithIndexFrom f k l).length = l.length := by
  induction l generalizing k with
  | nil => rfl
  | cons a as ih => simp [mapWithIndexFrom, ih]

theorem length_mapWithIndex (f : Nat → α → β) (l : List α) :
    (mapWithIndex f l).length = l.length :=
  length_mapWithIndexFrom f 0 l

theorem length_selectGo (pool : List Card) (count i : Nat)
    (pick : Nat → Nat) (flip : Nat → Bool) :
    (selectGo pool count i pick flip).length = min count pool.length := by
  induction count generalizing pool i with
  | zero => simp [selectGo]
  | succ c ih =>
    cases pool with
    | nil => simp [selectGo]
    | cons p ps =>
      simp only [selectGo, List.length_cons]
      rw [ih]
      have hlt : pick i % (ps.length + 1) < (p :: ps).length := by
        simpa using Nat.mod_lt (pick i) (Nat.succ_pos ps.length)
      rw [List.length_eraseIdx_of_lt hlt]
      simp only [List.length_cons]
      omega

/-- Removing the element at `i` and re-consing it is a permutation. -/
theorem cons_eraseIdx_perm (l : List Card) (i : Nat) (h : i < l.length) :
    (l.get ⟨i, h⟩ :: l.eraseIdx i).Perm l := by
  induction l generalizing i with
  | nil => simp at h
  | cons a as ih =>
    cases i with
    | zero => simp [List.eraseIdx]
    | succ j =>
      have hj : j < as.length := by simpa using h
      show as.get ⟨j, hj⟩ :: a :: as.eraseIdx j |>.Perm (a :: as)
      exact (List.Perm.swap a (as.get ⟨j, hj⟩) (as.eraseIdx j)).trans ((ih j hj).cons a)

/-- The cards drawn by the selection loop form a sub-permutation of the
working pool: each pool element is used at most once. -/
theorem selectGo_subperm (pool : List Card) (count i : Nat)
    (pick : Nat → Nat) (flip : Nat → Bool) :
    ((selectGo pool count i pick flip).map DrawnCard.card).Subperm pool := by
  induction count generalizing pool i with
  | zero => simp [selectGo]
  | succ c ih =>
    cases pool with
    | nil => simp [selectGo]
    | cons p ps =>
      simp only [selectGo, List.map_cons]
      have hlt : pick i % (p :: ps).length < (p :: ps).length :=
        Nat.mod_lt _ (by simp)
      have hget : (p :: ps).getD (pick i % (p :: ps).length) p
          = (p :: ps).get ⟨pick i % (p :: ps).length, hlt⟩ := by
        rw [List.getD_eq_getElem _ _ hlt]
        simp
      rw [hget]
      have htail := ih ((p :: ps).eraseIdx (pick i % (p :: ps).length)) (i + 1)
      have hcons := (List.subperm_cons
        ((p :: ps).get ⟨pick i % (p :: ps).length, hlt⟩)).mpr htail
      exact hcons.trans (cons_eraseIdx_perm _ _ hlt).subperm

theorem subperm_map_of_subperm (f : α → β) {l₁ l₂ : List α}
    (h : l₁.Subperm l₂) : (l₁.map f).Subperm (l₂.map f) := by
  obtain ⟨l, hp, hs⟩ := h
  exact ⟨l.map f, hp.map f, hs.map f⟩

theorem nodup_of_subperm {l₁ l₂ : List α} (h : l₁.Subperm l₂)
    (hd : l₂.Nodup) : l₁.Nodup := by
  obtain ⟨l, hp, hs⟩ := h
  exact hp.nodup (hs.nodup hd)

/-- Drawn card ids are distinct whenever the catalog's ids are. -/
theorem selectGo_ids_nodup (pool : List Card) (count i : Nat)
    (pick : Nat → Nat) (flip : Nat → Bool)
    (h : (pool.map Card.id).Nodup) :
    ((selectGo pool count i pick flip).map (fun d => d.card.id)).Nodup := by
  have hsub : ((selectGo pool count i pick flip).map DrawnCard.card).Subperm pool :=
    selectGo_subperm pool count i pick flip
  have hmap := subperm_map_of_subperm Card.id hsub
  rw [List.map_map] at hmap
  exact nodup_of_subperm hmap h

/-- The cards present in the zipped slots are exactly the drawn sequence
(truncated to the label count). -/
theorem filterMap_slots (ps : List String) (sel : List DrawnCard) (k : Nat) :
    ((mapWithIndexFrom (fun i pos => ReadingSlot.mk pos sel[i]?) k ps).filterMap
      (fun r => r.card)) = (sel.drop k).take ps.length := by
  induction ps generalizing k with
  | nil => simp [mapWithIndexFrom]
  | cons p ps ih =>
    simp only [mapWithIndexFrom, List.filterMap_cons]
    cases hk : sel[k]? with
    | none =>
      have hlen : sel.length ≤ k := List.getElem?_eq_none_iff.mp hk
      have h1 : sel.drop k = [] := List.drop_eq_nil_of_le hlen
      have h2 : sel.drop (k + 1) = [] := List.drop_eq_nil_of_le (by omega)
      rw [ih (k + 1), h1, h2]
      simp
    | some d =>
      have hk2 : k < sel.length := by
        by_contra hcon
        rw [List.getElem?_eq_none_iff.mpr (by omega)] at hk
        cases hk
      have hget : sel[k] = d := by
        have := List.getElem?_eq_getElem hk2
        rw [this] at hk
        exact (Option.some_inj.mp hk)
      have hdrop : sel.drop k = d :: sel.drop (k + 1) := by
        rw [List.drop_eq_getElem_cons hk2, hget]
      rw [ih (k + 1), hdrop, List.length_cons, List.take_succ_cons]

/-- Every slot holds a card when the drawn sequence covers all labels. -/
theorem slots_all_isSome (ps : List String) (sel : List DrawnCard) (k : Nat)
    (h : k + ps.length ≤ sel.length) :
    ((mapWithIndexFrom (fun i pos => ReadingSlot.mk pos sel[i]?) k ps).all
      (fun r => r.card.isSome)) = true := by
  induction ps generalizing k with
  | nil => rfl
  | cons p ps ih =>
    simp only [mapWithIndexFrom, List.all_cons, Bool.and_eq_true]
    constructor
    · have hk : k < sel.length := by
        simp only [List.length_cons] at h
        omega
      simp [List.getElem?_eq_getElem hk]
    · refine ih (k + 1) ?_
      simp only [List.length_cons] at h
      omega

theorem mem_insertDesc (r x : RRow) (l : List RRow) :
    x ∈ insertDesc r l ↔ x = r ∨ x ∈ l := by
  induction l with
  | nil => simp [insertDesc]
  | cons y ys ih =>
    rw [insertDesc]
    by_cases h : y.ts < r.ts
    · rw [if_pos h]
      simp only [List.mem_cons]
    · rw [if_neg h]
      simp only [List.mem_cons, ih]
      tauto

theorem insertDesc_pairwise (r : RRow) (l : List RRow)
    (h : l.Pairwise (fun a b => b.ts ≤ a.ts)) :
    (insertDesc r l).Pairwise (fun a b => b.ts ≤ a.ts) := by
  induction l with
  | nil => simp [insertDesc]
  | cons y ys ih =>
    rw [List.pairwise_cons] at h
    obtain ⟨hy, hys⟩ := h
    rw [insertDesc]
    by_cases hc : y.ts < r.ts
    · rw [if_pos hc]
      refine List.pairwise_cons.mpr ⟨?_, List.pairwise_cons.mpr ⟨hy, hys⟩⟩
      intro b hb
      rcases List.mem_cons.mp hb with rfl | hb2
      · omega
      · have := hy b hb2
        omega
    · rw [if_neg hc]
      refine List.pairwise_cons.mpr ⟨?_, ih hys⟩
      intro b hb
      rcases (mem_insertDesc r b ys).mp hb with rfl | hb2
      · omega
      · exact hy b hb2

theorem sortDesc_pairwise (l : List RRow) :
    (sortDesc l).Pairwise (fun a b => b.ts ≤ a.ts) := by
  induction l with
  | nil => simp [sortDesc]
  | cons x xs ih => exact insertDesc_pairwise x _ ih

theorem mem_sortDesc (x : RRow) (l : List RRow) :
    x ∈ sortDesc l ↔ x ∈ l := by
  induction l with
  | nil => simp [sortDesc]
  | cons y ys ih =>
    rw [sortDesc, mem_insertDesc, ih]
    simp [List.mem_cons]

/-- The strictly most recent row sorts to the front. -/
theorem sortDesc_head_of_max (l : List RRow) (r : RRow) (hmem : r ∈ l)
    (hmax : ∀ x ∈ l, x = r ∨ x.ts < r.ts) :
    (sortDesc l).head? = some r := by
  have hne : sortDesc l ≠ [] := by
    intro h
    rw [← mem_sortDesc, h] at hmem
    cases hmem
  obtain ⟨h, t, hht⟩ := List.exists_cons_of_ne_nil hne
  rw [hht]
  have hh : h ∈ l := (mem_sortDesc h l).mp (hht ▸ List.mem_cons_self h t)
  rcases hmax h hh with rfl | hlt
  · rfl
  · exfalso
    have hr : r ∈ h :: t := by
      rw [← hht, mem_sortDesc]
      exact hmem
    rcases List.mem_cons.mp hr with rfl | hrt
    · omega
    · have hp := sortDesc_pairwise l
      rw [hht, List.pairwise_cons] at hp
      have := hp.1 r hrt
      omega

theorem head?_take_of_pos (l : List α) (n : Nat) (h : 1 ≤ n) :
    (l.take n).head? = l.head? := by
  cases l with
  | nil => simp
  | cons a t =>
    cases n with
    | zero => omega
    | succ m => simp [List.take_succ_cons]

theorem splitOnNl_nil : splitOnNl [] = [[]] := rfl

theorem splitOnNl_cons (c : Char) (rest : List Char) :
    splitOnNl (c :: rest) =
      if c = '\n' then [] :: splitOnNl rest
      else
        match splitOnNl rest with
        | [] => [[c]]
        | h :: t => (c :: h) :: t := rfl

theorem chunkLines_nil (cur : List Char) (first : Bool) :
    chunkLines [] cur first =
      if cur.any (fun c => !c.isWhitespace) then [⟨cur, false⟩] else [] := rfl

theorem chunkLines_cons (line : List Char) (rest : List (List Char))
    (cur : List Char) (first : Bool) :
    chunkLines (line :: rest) cur first =
      if 1900 < cur.length + line.length then
        ⟨cur, first⟩ :: chunkLines rest (line ++ ['\n']) false
      else chunkLines rest (cur ++ line ++ ['\n']) first := rfl

theorem splitOnNl_ne_nil (s : List Char) : splitOnNl s ≠ [] := by
  match s with
  | [] => simp [splitOnNl_nil]
  | c :: rest =>
    rw [splitOnNl_cons]
    by_cases h : c = '\n'
    · simp [h]
    · rw [if_neg h]
      match hr : splitOnNl rest with
      | [] => simp
      | h2 :: t => simp

theorem splitOnNl_append_of_not_mem (l s : List Char) (hl : '\n' ∉ l) :
    splitOnNl (l ++ s) =
      (l ++ (splitOnNl s).headD []) :: (splitOnNl s).tail := by
  induction l with
  | nil =>
    rw [List.nil_append, List.nil_append]
    match hs : splitOnNl s with
    | [] => exact absurd hs (splitOnNl_ne_nil s)
    | h :: t => rfl
  | cons c cs ih =>
    have hc : c ≠ '\n' := fun h => hl (h ▸ List.mem_cons_self c cs)
    have hcs : '\n' ∉ cs := fun h => hl (List.mem_cons_of_mem c h)
    rw [List.cons_append, splitOnNl_cons, if_neg hc, ih hcs]
    rfl

theorem splitOnNl_append_nl (l s : List Char) (hl : '\n' ∉ l) :
    splitOnNl (l ++ '\n' :: s) = l :: splitOnNl s := by
  rw [splitOnNl_append_of_not_mem l ('\n' :: s) hl, splitOnNl_cons, if_pos rfl]
  simp only [List.headD_cons, List.tail_cons, List.append_nil]

theorem splitOnNl_of_not_mem (l : List Char) (hl : '\n' ∉ l) :
    splitOnNl l = [l] := by
  have h := splitOnNl_append_of_not_mem l [] hl
  rw [List.append_nil] at h
  rw [h, splitOnNl_nil]
  simp only [List.headD_cons, List.tail_cons, List.append_nil]

theorem totalLen_splitOnNl (s : List Char) :
    totalLen (splitOnNl s) = s.length + 1 := by
  induction s with
  | nil => rfl
  | cons c rest ih =>
    rw [splitOnNl_cons]
    by_cases h : c = '\n'
    · rw [if_pos h]
      simp only [totalLen, List.map_cons, List.sum_cons, List.length_cons,
        List.length_nil] at ih ⊢
      omega
    · rw [if_neg h]
      cases hr : splitOnNl rest with
      | nil => exact absurd hr (splitOnNl_ne_nil rest)
      | cons hd tl =>
        rw [hr] at ih
        simp only [totalLen, List.map_cons, List.sum_cons, List.length_cons] at ih ⊢
        omega

/-- Every chunk the router flushes fits in 1901 characters, provided no
single line exceeds 1899 characters and the accumulator does not start
over 1901. -/
theorem chunkLines_content_bound (lines : List (List Char)) (cur : List Char)
    (first : Bool) (hl : ∀ l ∈ lines, l.length ≤ 1899)
    (hc : cur.length ≤ 1901) :
    ∀ m ∈ chunkLines lines cur first, m.content.length ≤ 1901 := by
  induction lines generalizing cur first with
  | nil =>
    intro m hm
    rw [chunkLines_nil] at hm
    by_cases h : (cur.any fun c => !c.isWhitespace) = true
    · rw [if_pos h] at hm
      rcases List.mem_singleton.mp hm with rfl
      exact hc
    · rw [if_neg h] at hm
      cases hm
  | cons line rest ih =>
    intro m hm
    rw [chunkLines_cons] at hm
    have hline := hl line (List.mem_cons_self _ _)
    by_cases hcond : 1900 < cur.length + line.length
    · rw [if_pos hcond] at hm
      rcases List.mem_cons.mp hm with rfl | hm2
      · exact hc
      · refine ih _ false (fun l hl2 => hl l (List.mem_cons_of_mem _ hl2)) ?_ m hm2
        simp only [List.length_append, List.length_cons, List.length_nil]
        omega
    · rw [if_neg hcond] at hm
      refine ih _ first (fun l hl2 => hl l (List.mem_cons_of_mem _ hl2)) ?_ m hm
      simp only [List.length_append, List.length_cons, List.length_nil]
      omega

/-- A run started with the image already spent never attaches it. -/
theorem chunkLines_all_not_image (lines : List (List Char)) (cur : List Char) :
    ∀ m ∈ chunkLines lines cur false, m.hasImage = false := by
  induction lines generalizing cur with
  | nil =>
    intro m hm
    rw [chunkLines_nil] at hm
    by_cases h : (cur.any fun c => !c.isWhitespace) = true
    · rw [if_pos h] at hm
      rcases List.mem_singleton.mp hm with rfl
      rfl
    · rw [if_neg h] at hm
      cases hm
  | cons line rest ih =>
    intro m hm
    rw [chunkLines_cons] at hm
    by_cases hcond : 1900 < cur.length + line.length
    · rw [if_pos hcond] at hm
      rcases List.mem_cons.mp hm with rfl | hm2
      · rfl
      · exact ih _ m hm2
    · rw [if_neg hcond] at hm
      exact ih _ m hm

/-- Only the first emitted message can carry the image. -/
theorem chunkLines_tail_not_image (lines : List (List Char)) (cur : List Char)
    (first : Bool) :
    ∀ m ∈ (chunkLines lines cur first).drop 1, m.hasImage = false := by
  induction lines generalizing cur first with
  | nil =>
    intro m hm
    rw [chunkLines_nil] at hm
    by_cases h : (cur.any fun c => !c.isWhitespace) = true
    · rw [if_pos h] at hm
      cases hm
    · rw [if_neg h] at hm
      cases hm
  | cons line rest ih =>
    intro m hm
    rw [chunkLines_cons] at hm
    by_cases hcond : 1900 < cur.length + line.length
    · rw [if_pos hcond, List.drop_succ_cons, List.drop_zero] at hm
      exact chunkLines_all_not_image _ _ m hm
    · rw [if_neg hcond] at hm
      exact ih _ first m hm

/-- When the pending text cannot all fit in one chunk, the head of the
output is the flush that carries the image. -/
theorem chunkLines_head_image (lines : List (List Char)) (cur : List Char)
    (hl : ∀ l ∈ lines, l.length ≤ 1899) (hc : cur.length ≤ 1901)
    (hgt : 1901 < cur.length + totalLen lines) :
    ((chunkLines lines cur true).head?.map Msg.hasImage) = some true := by
  induction lines generalizing cur with
  | nil =>
    simp only [totalLen, List.map_nil, List.sum_nil] at hgt
    omega
  | cons line rest ih =>
    rw [chunkLines_cons]
    by_cases hcond : 1900 < cur.length + line.length
    · rw [if_pos hcond]
      rfl
    · rw [if_neg hcond]
      refine ih _ (fun l hl2 => hl l (List.mem_cons_of_mem _ hl2)) ?_ ?_
      · simp only [List.length_append, List.length_cons, List.length_nil]
        omega
      · simp only [totalLen, List.map_cons, List.sum_cons] at hgt
        simp only [totalLen, List.length_append, List.length_cons, List.length_nil]
        omega

/-- A run whose last line is not whitespace-only emits at least one
message. -/
theorem chunkLines_one_le (lines : List (List Char)) (cur : List Char)
    (first : Bool) (hne : lines ≠ [])
    (hlast : (((lines.getLast?).getD []).any (fun c => !c.isWhitespace)) = true) :
    1 ≤ (chunkLines lines cur first).length := by
  induction lines generalizing cur first with
  | nil => exact absurd rfl hne
  | cons line rest ih =>
    cases rest with
    | nil =>
      have hline : (line.any (fun c => !c.isWhitespace)) = true := by
        simpa using hlast
      rw [chunkLines_cons]
      by_cases hcond : 1900 < cur.length + line.length
      · rw [if_pos hcond]
        simp only [List.length_cons]
        omega
      · rw [if_neg hcond, chunkLines_nil]
        obtain ⟨c, hcmem, hcp⟩ := List.any_eq_true.mp hline
        have hany : ((cur ++ line ++ ['\n']).any (fun c => !c.isWhitespace)) = true :=
          List.any_eq_true.mpr
            ⟨c, List.mem_append_left ['\n'] (List.mem_append_right cur hcmem), hcp⟩
        rw [if_pos hany]
        simp
    | cons l2 r2 =>
      have hlast2 : ((((l2 :: r2).getLast?).getD []).any
          (fun c => !c.isWhitespace)) = true := by
        rw [List.getLast?_cons_cons] at hlast
        exact hlast
      rw [chunkLines_cons]
      by_cases hcond : 1900 < cur.length + line.length
      · rw [if_pos hcond]
        simp only [List.length_cons]
        omega
      · rw [if_neg hcond]
        exact ih _ first (by simp) hlast2

/-- With more than one chunk's worth of pending text and a
non-whitespace last line, at least two messages are emitted. -/
theorem chunkLines_two_le (lines : List (List Char)) (cur : List Char)
    (first : Bool) (hne : lines ≠ [])
    (hlast : (((lines.getLast?).getD []).any (fun c => !c.isWhitespace)) = true)
    (hl : ∀ l ∈ lines, l.length ≤ 1899) (hc : cur.length ≤ 1901)
    (hgt : 1901 < cur.length + totalLen lines) :
    2 ≤ (chunkLines lines cur first).length := by
  induction lines generalizing cur first with
  | nil => exact absurd rfl hne
  | cons line rest ih =>
    cases rest with
    | nil =>
      have hline : (line.any (fun c => !c.isWhitespace)) = true := by
        simpa using hlast
      have hcond : 1900 < cur.length + line.length := by
        simp only [totalLen, List.map_cons, List.map_nil, List.sum_cons,
          List.sum_nil] at hgt
        omega
      rw [chunkLines_cons, if_pos hcond, chunkLines_nil]
      obtain ⟨c, hcmem, hcp⟩ := List.any_eq_true.mp hline
      have hany : ((line ++ ['\n']).any (fun c => !c.isWhitespace)) = true :=
        List.any_eq_true.mpr ⟨c, List.mem_append_left ['\n'] hcmem, hcp⟩
      rw [if_pos hany]
      simp
    | cons l2 r2 =>
      have hlast2 : ((((l2 :: r2).getLast?).getD []).any
          (fun c => !c.isWhitespace)) = true := by
        rw [List.getLast?_cons_cons] at hlast
        exact hlast
      rw [chunkLines_cons]
      by_cases hcond : 1900 < cur.length + line.length
      · rw [if_pos hcond]
        simp only [List.length_cons]
        have := chunkLines_one_le (l2 :: r2) (line ++ ['\n']) false (by simp) hlast2
        omega
      · rw [if_neg hcond]
        refine ih _ first (by simp) hlast2
          (fun l hl2 => hl l (List.mem_cons_of_mem _ hl2)) ?_ ?_
        · simp only [List.length_append, List.length_cons, List.length_nil]
          omega
        · simp only [totalLen, List.map_cons, List.sum_cons, List.length_append,
            List.length_cons, List.length_nil] at hgt ⊢
          omega

theorem lineA_nl : '\n' ∉ lineA := by
  show '\n' ∉ List.replicate 1000 'a'
  intro h
  exact absurd (List.eq_of_mem_replicate h) (by decide)

theorem lineB_nl : '\n' ∉ lineB := by
  show '\n' ∉ List.replicate 899 'b'
  intro h
  exact absurd (List.eq_of_mem_replicate h) (by decide)

theorem lineC_nl : '\n' ∉ lineC := by
  show '\n' ∉ List.replicate 200 'c'
  intro h
  exact absurd (List.eq_of_mem_replicate h) (by decide)

theorem lineA_len : lineA.length = 1000 := by rw [lineA, List.length_replicate]

theorem lineB_len : lineB.length = 899 := by rw [lineB, List.length_replicate]

theorem lineC_len : lineC.length = 200 := by rw [lineC, List.length_replicate]

theorem lineC_any : (lineC.any (fun c => !c.isWhitespace)) = true := by
  refine List.any_eq_true.mpr ⟨'c', ?_, by decide⟩
  rw [lineC]
  exact List.mem_replicate.mpr ⟨by omega, rfl⟩

theorem c5text_len : c5text.length = 2101 := by
  rw [c5text]
  simp only [List.length_append, List.length_cons, lineA_len, lineB_len, lineC_len]

theorem c5text_split : splitOnNl c5text = [lineA, lineB, lineC] := by
  rw [c5text, splitOnNl_append_nl _ _ lineA_nl, splitOnNl_append_nl _ _ lineB_nl,
    splitOnNl_of_not_mem _ lineC_nl]

theorem c5text_route : routeReading c5text =
    [⟨[] ++ (lineA ++ ['\n']) ++ (lineB ++ ['\n']), true⟩,
     ⟨lineC ++ ['\n'], false⟩] := by
  have hany : ((lineC ++ ['\n']).any (fun c => !c.isWhitespace)) = true := by
    obtain ⟨c, hcmem, hcp⟩ := List.any_eq_true.mp lineC_any
    exact List.any_eq_true.mpr ⟨c, List.mem_append_left ['\n'] hcmem, hcp⟩
  rw [routeReading, if_pos (by rw [c5text_len]; omega), c5text_split]
  rw [chunkLines_cons, if_neg (by simp only [List.length_nil, lineA_len]; omega)]
  rw [chunkLines_cons, if_neg (by
    simp only [List.nil_append, List.length_append, List.length_cons,
      List.length_nil, lineA_len, lineB_len]
    omega)]
  rw [chunkLines_cons, if_pos (by
    simp only [List.nil_append, List.length_append, List.length_cons,
      List.length_nil, lineA_len, lineB_len, lineC_len]
    omega)]
  rw [chunkLines_nil, if_pos hany]
  simp only [List.append_assoc]

theorem length_filter_range_row (n r : Nat) :
    ((List.range n).filter (fun j => j / 5 = r)).length = min (n - r * 5) 5 := by
  induction n with
  | zero => simp
  | succ m ih =>
    rw [List.range_succ, List.filter_append, List.length_append, ih]
    by_cases h : m / 5 = r
    · simp only [List.filter_cons, List.filter_nil, h, eq_self_iff_true,
        decide_eq_true_eq, if_true, List.length_cons, List.length_nil]
      omega
    · simp only [List.filter_cons, List.filter_nil,
        decide_eq_true_eq, if_neg h, List.length_nil]
      omega

theorem performReading_eq_of_known (s : BotState)
    (spreadName question userId : String) (pick : Nat → Nat)
    (flip : Nat → Bool) (now : Nat) (appendOk : Bool) (store : List RRow)
    (positions : List String)
    (hs : objGet s.spreads spreadName = some positions) :
    performReading s spreadName question userId pick flip now appendOk store =
      (some (assembledReading s spreadName question userId pick flip now
          positions),
        saveReading (assembledReading s spreadName question userId pick flip
          now positions) appendOk store) := by
  unfold performReading assembledReading
  rw [hs]

theorem saveReading_not_ok (reading : Reading) (store : List RRow) :
    saveReading reading false store = store := by
  unfold saveReading
  cases summaryOf reading.results with
  | none => rfl
  | some text => simp

/-! ## Claims -/

/-- C1: for every spread known to the catalog with `N` position labels,
`performReading` returns a reading whose slot list has exactly `N`
entries, and the card ids occurring in those slots are pairwise
distinct. -/
theorem performReading_slot_count_and_distinct (s : BotState)
    (spreadName question userId : String) (pick : Nat → Nat)
    (flip : Nat → Bool) (now : Nat) (appendOk : Bool) (store : List RRow)
    (positions : List String)
    (hs : objGet s.spreads spreadName = some positions)
    (hids : (s.cards.map Card.id).Nodup) :
    ∃ r, (performReading s spreadName question userId pick flip now appendOk
        store).1 = some r ∧
      r.results.length = positions.length ∧
      ((r.results.filterMap (fun slot => slot.card)).map
        (fun d => d.card.id)).Nodup := by
  simp only [performReading, hs]
  refine ⟨_, rfl, length_mapWithIndex _ _, ?_⟩
  have hsel : (selectRandomCards s.cards positions.length pick flip).length =
      min positions.length s.cards.length := length_selectGo _ _ _ _ _
  have h1 := filterMap_slots positions
    (selectRandomCards s.cards positions.length pick flip) 0
  rw [List.drop_zero] at h1
  have htake : (selectRandomCards s.cards positions.length pick flip).take
      positions.length = selectRandomCards s.cards positions.length pick flip :=
    List.take_of_length_le (by rw [hsel]; exact Nat.min_le_left _ _)
  rw [mapWithIndex] at *
  rw [h1, htake]
  exact selectGo_ids_nodup s.cards positions.length 0 pick flip hids

/-- C1 witness: the three-card spread on the two-spread catalog. -/
theorem performReading_slot_count_and_distinct_witness :
    ∃ r, (performReading wState "three" "質問" "u1" (fun _ => 0)
        (fun _ => false) 9 true []).1 = some r ∧
      r.results.length = 3 ∧
      ((r.results.filterMap (fun slot => slot.card)).map
        (fun d => d.card.id)).Nodup := by
  obtain ⟨r, h1, h2, h3⟩ := performReading_slot_count_and_distinct wState
    "three" "質問" "u1" (fun _ => 0) (fun _ => false) 9 true []
    ["過去", "現在", "未来"] (by decide) (by decide)
  exact ⟨r, h1, h2.trans rfl, h3⟩

/-- C2: `selectRandomCards(count)` returns exactly
`min count (catalog size)` drawn cards, with pairwise distinct card ids,
and is total (no error) even when `count` exceeds the catalog size. -/
theorem selectRandomCards_length_and_distinct (cards : List Card)
    (count : Nat) (pick : Nat → Nat) (flip : Nat → Bool)
    (hids : (cards.map Card.id).Nodup) :
    (selectRandomCards cards count pick flip).length = min count cards.length ∧
    ((selectRandomCards cards count pick flip).map
      (fun d => d.card.id)).Nodup :=
  ⟨length_selectGo cards count 0 pick flip,
    selectGo_ids_nodup cards count 0 pick flip hids⟩

/-- C2 witness: five cards requested from a two-card catalog. -/
theorem selectRandomCards_length_and_distinct_witness :
    (selectRandomCards wCards 5 (fun i => i) (fun _ => true)).length = 2 ∧
    ((selectRandomCards wCards 5 (fun i => i) (fun _ => true)).map
      (fun d => d.card.id)).Nodup := by
  obtain ⟨h1, h2⟩ := selectRandomCards_length_and_distinct wCards 5
    (fun i => i) (fun _ => true) (by decide)
  exact ⟨h1.trans (by decide), h2⟩

/-- C4 counterexample: a load attempt in which the Cards fetch succeeds
and the Spreads fetch fails replaces the card list while keeping the old
spread table — a partial overwrite, contradicting atomicity. -/
theorem loadCatalog_not_atomic :
    ((loadSpreads none (loadCards c4CardsFetch c4State).1).1).cards ≠
      c4State.cards ∧
    ((loadSpreads none (loadCards c4CardsFetch c4State).1).1).spreads =
      c4State.spreads := by
  decide

/-- C4 amended: the two loaders are independent, not atomic as a pair:
each failed loader leaves the whole state unchanged, and each successful
loader touches only its own table (`loadCards` replaces the card list,
`loadSpreads` merges rows into the spread table); neither rolls the
other back. -/
theorem loadCatalog_componentwise (s : BotState)
    (cf : Option (List CardRow)) (sf : Option (List SpreadRow)) :
    ((loadCards cf s).1).spreads = s.spreads ∧
    ((loadSpreads sf s).1).cards = s.cards ∧
    ((loadCards cf s).2 = false → (loadCards cf s).1 = s) ∧
    ((loadSpreads sf s).2 = false → (loadSpreads sf s).1 = s) := by
  refine ⟨?_, ?_, ?_, ?_⟩
  · cases cf with
    | none => rfl
    | some rows =>
      rw [loadCards]
      by_cases h : 1 < rows.length
      · rw [if_pos h]
      · rw [if_neg h]
  · cases sf with
    | none => rfl
    | some rows =>
      rw [loadSpreads]
      by_cases h : 1 < rows.length
      · rw [if_pos h]
      · rw [if_neg h]
  · cases cf with
    | none => intro; rfl
    | some rows =>
      rw [loadCards]
      by_cases h : 1 < rows.length
      · rw [if_pos h]
        intro hfalse
        cases hfalse
      · rw [if_neg h]
        intro
        rfl
  · cases sf with
    | none => intro; rfl
    | some rows =>
      rw [loadSpreads]
      by_cases h : 1 < rows.length
      · rw [if_pos h]
        intro hfalse
        cases hfalse
      · rw [if_neg h]
        intro
        rfl

/-- C4 amended witness: a failed Cards fetch leaves the state intact. -/
theorem loadCatalog_componentwise_witness :
    ((loadCards none c4State).1).spreads = c4State.spreads ∧
    (loadCards none c4State).1 = c4State := by
  have h := loadCatalog_componentwise c4State none none
  exact ⟨h.1, h.2.2.1 rfl⟩

/-- C7: a persistence failure never reaches the user-facing result: for
a known spread, `performReading` returns the same assembled reading
whether or not the store append succeeds, and the failed append leaves
the sheet unchanged. -/
theorem performReading_ignores_save_failure (s : BotState)
    (spreadName question userId : String) (pick : Nat → Nat)
    (flip : Nat → Bool) (now : Nat) (store : List RRow)
    (positions : List String)
    (hs : objGet s.spreads spreadName = some positions) :
    (performReading s spreadName question userId pick flip now false store).1 =
      (performReading s spreadName question userId pick flip now true store).1 ∧
    ((performReading s spreadName question userId pick flip now false
      store).1).isSome = true ∧
    (performReading s spreadName question userId pick flip now false store).2 =
      store := by
  rw [performReading_eq_of_known s spreadName question userId pick flip now
    false store positions hs, performReading_eq_of_known s spreadName question
    userId pick flip now true store positions hs]
  exact ⟨rfl, rfl, saveReading_not_ok _ _⟩

/-- C7 witness. -/
theorem performReading_ignores_save_failure_witness :
    (performReading wState "one" "q" "u1" (fun _ => 0) (fun _ => false) 7
        false []).1 =
      (performReading wState "one" "q" "u1" (fun _ => 0) (fun _ => false) 7
        true []).1 ∧
    ((performReading wState "one" "q" "u1" (fun _ => 0) (fun _ => false) 7
      false []).1).isSome = true := by
  have h := performReading_ignores_save_failure wState "one" "q" "u1"
    (fun _ => 0) (fun _ => false) 7 [] ["現状"] (by decide)
  exact ⟨h.1, h.2.1⟩

/-- C8 counterexample: the eight-slot `nitaku` two-option spread is
rendered by the generic per-slot branch, while `horse` is not — so
role-specific headings are not used for every fixed spread with semantic
roles, contrary to the claim. -/
theorem formatReading_nitaku_is_generic :
    formatReading nitakuReading = genericFormat nitakuReading ∧
    formatReading horseReading ≠ genericFormat horseReading := by
  constructor
  · rw [formatReading, if_neg (by decide)]
  · decide

/-- C8 amended: `formatReading` uses role-specific headings only for the
`horse` spread; every other spread, the `nitaku` two-option comparison
included, falls back to the generic per-slot labels. -/
theorem formatReading_role_headings_only_horse (reading : Reading)
    (h : reading.spread ≠ "horse") :
    formatReading reading = genericFormat reading := by
  rw [formatReading, if_neg h]

/-- C8 amended witness. -/
theorem formatReading_role_headings_only_horse_witness :
    formatReading nitakuReading = genericFormat nitakuReading :=
  formatReading_role_headings_only_horse nitakuReading (by decide)

/-- C9: a history query returns at most `limit` rows, sorted descending
by timestamp, all owned by the requesting user; and an empty result
formats to the distinct empty-history message, not an empty string. -/
theorem getReadingHistory_at_most_sorted_filtered
    (fetch : Option (List RRow)) (userId : String) (limit : Nat) :
    (getReadingHistory fetch userId limit).length ≤ limit ∧
    (getReadingHistory fetch userId limit).Pairwise
      (fun a b => b.ts ≤ a.ts) ∧
    (∀ r ∈ getReadingHistory fetch userId limit, r.userId = userId) ∧
    formatHistory [] = "📋 **占い履歴**\n\n履歴がありません。" ∧
    formatHistory [] ≠ "" := by
  refine ⟨?_, ?_, ?_, rfl, by decide⟩
  · cases fetch with
    | none => simp [getReadingHistory]
    | some rows =>
      rw [getReadingHistory]
      by_cases h : rows.length ≤ 1
      · rw [if_pos h]
        simp
      · rw [if_neg h]
        exact List.length_take_le limit _
  · cases fetch with
    | none => simp [getReadingHistory]
    | some rows =>
      rw [getReadingHistory]
      by_cases h : rows.length ≤ 1
      · rw [if_pos h]
        simp
      · rw [if_neg h]
        exact (sortDesc_pairwise _).sublist (List.take_sublist _ _)
  · cases fetch with
    | none => simp [getReadingHistory]
    | some rows =>
      rw [getReadingHistory]
      by_cases h : rows.length ≤ 1
      · rw [if_pos h]
        simp
      · rw [if_neg h]
        intro r hr
        have hmem : r ∈ sortDesc ((rows.drop 1).filter
            (fun row => row.userId = userId)) :=
          List.mem_of_mem_take hr
        have hfil := (mem_sortDesc _ _).mp hmem
        have := List.of_mem_filter hfil
        simp only [decide_eq_true_eq] at this
        exact this

/-- C3: the spread-image layout: `rows = ceil(cardCount / 5)`; canvas
width `2*70 + min(cardCount, 5)*140`; canvas height
`300 + ((rows - 1)*280 + 200) + 60`; card `i` sits at
`x = (canvasWidth - (cardsInItsRow - 1)*140)/2 + (i mod 5)*140`,
`y = 300 + (i / 5)*280`, where `cardsInItsRow` equals the number of
cards that actually land in card `i`'s row, and each row is centered
independently (its first and last card centers are symmetric about the
canvas midline). -/
theorem generateSpreadImage_layout (cardCount i : Nat) (hi : i < cardCount) :
    (cardCount ≤ 5 * layoutRows cardCount ∧
      5 * layoutRows cardCount < cardCount + 5) ∧
    layoutCanvasWidth cardCount = 2 * 70 + (min cardCount 5 : Int) * 140 ∧
    layoutCanvasHeight cardCount =
      300 + (((layoutRows cardCount : Int) - 1) * 280 + 200) + 60 ∧
    layoutCardX cardCount i =
      (layoutCanvasWidth cardCount -
        ((layoutCardsInRow cardCount (i / 5) : Int) - 1) * 140) / 2 +
      (i % 5 : Int) * 140 ∧
    layoutCardY i = 300 + (i / 5 : Int) * 280 ∧
    layoutCardsInRow cardCount (i / 5) =
      ((List.range cardCount).filter (fun j => j / 5 = i / 5)).length ∧
    layoutCardX cardCount (5 * (i / 5)) +
      layoutCardX cardCount
        (5 * (i / 5) + (layoutCardsInRow cardCount (i / 5) - 1)) =
      layoutCanvasWidth cardCount := by
  refine ⟨⟨?_, ?_⟩, by norm_num [layoutCanvasWidth, layoutMaxCols], rfl, rfl,
    rfl, ?_, ?_⟩
  · rw [layoutRows]
    omega
  · rw [layoutRows]
    omega
  · rw [length_filter_range_row cardCount (i / 5), layoutCardsInRow]
  · unfold layoutCardX layoutCanvasWidth layoutCardsInRow layoutMaxCols
    omega

/-- C3 witness: seven cards, card index 6 (second row). -/
theorem generateSpreadImage_layout_witness :
    6 < 7 ∧
    (7 ≤ 5 * layoutRows 7 ∧ 5 * layoutRows 7 < 7 + 5) ∧
    layoutCanvasWidth 7 = 2 * 70 + (min 7 5 : Int) * 140 ∧
    layoutCanvasHeight 7 = 300 + (((layoutRows 7 : Int) - 1) * 280 + 200) + 60 ∧
    layoutCardX 7 6 =
      (layoutCanvasWidth 7 - ((layoutCardsInRow 7 (6 / 5) : Int) - 1) * 140) / 2 +
      (6 % 5 : Int) * 140 ∧
    layoutCardY 6 = 300 + (6 / 5 : Int) * 280 ∧
    layoutCardsInRow 7 (6 / 5) =
      ((List.range 7).filter (fun j => j / 5 = 6 / 5)).length ∧
    layoutCardX 7 (5 * (6 / 5)) +
      layoutCardX 7 (5 * (6 / 5) + (layoutCardsInRow 7 (6 / 5) - 1)) =
      layoutCanvasWidth 7 :=
  ⟨by decide, generateSpreadImage_layout 7 6 (by decide)⟩

/-- C5 counterexample: a 2101-character formatted reading whose lines
measure 1000, 899 and 200 characters is split into a first chunk of 1901
characters — more than the claimed 1900-character bound (the length
check ignores the newline appended after it). -/
theorem routeReading_chunk_exceeds_1900 :
    2000 < c5text.length ∧
    ¬ (∀ m ∈ routeReading c5text, m.content.length ≤ 1900) := by
  refine ⟨by rw [c5text_len]; omega, fun hall => ?_⟩
  have hm := hall ⟨[] ++ (lineA ++ ['\n']) ++ (lineB ++ ['\n']), true⟩
    (by rw [c5text_route]; exact List.mem_cons_self _ _)
  simp only [List.nil_append, List.length_append, List.length_cons,
    List.length_nil, lineA_len, lineB_len] at hm
  omega

/-- C5 amended: when the formatted text exceeds the 2000-character
limit, no single line exceeds 1899 characters, and the last line is not
whitespace-only, the router splits on line boundaries into two or more
messages, each at most 1901 characters (the 1900-character check is
applied before the trailing newline is added), with the image attached
to the first message only. -/
theorem routeReading_chunking_spec (text : List Char)
    (hlen : 2000 < text.length)
    (hline : ∀ l ∈ splitOnNl text, l.length ≤ 1899)
    (hlast : ((((splitOnNl text).getLast?).getD []).any
      (fun c => !c.isWhitespace)) = true) :
    2 ≤ (routeReading text).length ∧
    (∀ m ∈ routeReading text, m.content.length ≤ 1901) ∧
    ((routeReading text).head?.map Msg.hasImage) = some true ∧
    (∀ m ∈ (routeReading text).drop 1, m.hasImage = false) := by
  have hne := splitOnNl_ne_nil text
  have htot : totalLen (splitOnNl text) = text.length + 1 :=
    totalLen_splitOnNl text
  have hgt : 1901 < ([] : List Char).length + totalLen (splitOnNl text) := by
    rw [List.length_nil, htot]
    omega
  rw [routeReading, if_pos hlen]
  exact ⟨chunkLines_two_le _ _ true hne hlast hline (by simp) hgt,
    chunkLines_content_bound _ _ true hline (by simp),
    chunkLines_head_image _ _ hline (by simp) hgt,
    chunkLines_tail_not_image _ _ true⟩

/-- C5 amended witness: the 2101-character three-line reading. -/
theorem routeReading_chunking_spec_witness :
    2 ≤ (routeReading c5text).length ∧
    (∀ m ∈ routeReading c5text, m.content.length ≤ 1901) ∧
    ((routeReading c5text).head?.map Msg.hasImage) = some true := by
  have h := routeReading_chunking_spec c5text (by rw [c5text_len]; omega)
    (by
      intro l hl
      rw [c5text_split] at hl
      simp only [List.mem_cons, List.not_mem_nil, or_false] at hl
      rcases hl with rfl | rfl | rfl
      · rw [lineA_len]
        omega
      · rw [lineB_len]
        omega
      · rw [lineC_len]
        omega)
    (by
      rw [c5text_split, List.getLast?_cons_cons, List.getLast?_cons_cons]
      exact lineC_any)
  exact ⟨h.1, h.2.1, h.2.2.1⟩

/-- C6 counterexample: with the store append succeeding, a history query
issued immediately after `performReading` returns already sees the new
reading as its most recent entry — `performReading` awaits the persist
call, so the persist is never still in flight at return and
read-after-write does hold on a successful save, contrary to the
claim. -/
theorem performReading_history_immediately_visible :
    (getReadingHistory
      (some (headerRow :: (performReading wState "one" "質問です" "u1"
        (fun _ => 0) (fun _ => false) 10 true c6Store).2)) "u1" 5).head? =
      some ⟨10, "u1", "質問です", "one", "現状:愚者(正位置)"⟩ := by
  decide

/-- C6 amended: `performReading` awaits the persistence attempt, so at
return the store already reflects the attempt's outcome; when the append
succeeds and the new timestamp is the latest, an immediate history query
for the same user returns the new reading first. Only a silently
swallowed append failure breaks read-after-write. -/
theorem performReading_read_after_write (s : BotState)
    (spreadName question userId : String) (pick : Nat → Nat)
    (flip : Nat → Bool) (now : Nat) (store : List RRow)
    (positions : List String) (limit : Nat)
    (hs : objGet s.spreads spreadName = some positions)
    (hcap : positions.length ≤ s.cards.length)
    (hfresh : ∀ x ∈ store, x.ts < now) (hlim : 1 ≤ limit) :
    ∃ r row,
      (performReading s spreadName question userId pick flip now true
        store).1 = some r ∧
      (performReading s spreadName question userId pick flip now true
        store).2 = store ++ [row] ∧
      row.ts = now ∧ row.userId = userId ∧ row.question = question ∧
      row.spread = spreadName ∧
      (getReadingHistory
        (some (headerRow :: (performReading s spreadName question userId pick
          flip now true store).2)) userId limit).head? = some row := by
  rw [performReading_eq_of_known s spreadName question userId pick flip now
    true store positions hs]
  have hsel : (selectRandomCards s.cards positions.length pick flip).length =
      min positions.length s.cards.length := length_selectGo _ _ _ _ _
  have hall : ((assembledReading s spreadName question userId pick flip now
      positions).results.all (fun r => r.card.isSome)) = true := by
    unfold assembledReading
    rw [mapWithIndex]
    refine slots_all_isSome positions _ 0 ?_
    rw [hsel, Nat.zero_add]
    exact Nat.le_min.mpr ⟨Nat.le_refl _, hcap⟩
  obtain ⟨text, htext⟩ : ∃ text, summaryOf (assembledReading s spreadName
      question userId pick flip now positions).results = some text := by
    rw [summaryOf, if_pos hall]
    exact ⟨_, rfl⟩
  have hsave : saveReading (assembledReading s spreadName question userId pick
      flip now positions) true store =
      store ++ [⟨now, userId, question, spreadName, text⟩] := by
    unfold saveReading
    rw [htext]
    rfl
  refine ⟨_, ⟨now, userId, question, spreadName, text⟩, rfl, hsave, rfl, rfl,
    rfl, rfl, ?_⟩
  rw [hsave, getReadingHistory]
  rw [if_neg (by
    simp only [List.length_cons, List.length_append, List.length_nil]
    omega)]
  rw [List.drop_succ_cons, List.drop_zero]
  rw [List.filter_append]
  have hrowfil : ([(⟨now, userId, question, spreadName, text⟩ : RRow)].filter
      (fun row => row.userId = userId)) =
      [⟨now, userId, question, spreadName, text⟩] := by
    simp
  rw [hrowfil]
  rw [head?_take_of_pos _ limit hlim]
  refine sortDesc_head_of_max _ _ (List.mem_append_right _
    (List.mem_cons_self _ _)) ?_
  intro x hx
  rcases List.mem_append.mp hx with hx1 | hx2
  · right
    have hxs : x ∈ store := List.mem_of_mem_filter hx1
    exact hfresh x hxs
  · left
    rcases List.mem_cons.mp hx2 with rfl | hfalse
    · rfl
    · cases hfalse

/-- C6 amended witness. -/
theorem performReading_read_after_write_witness :
    ∃ r row,
      (performReading wState "one" "質問" "u1" (fun _ => 0) (fun _ => false)
        10 true c6Store).1 = some r ∧
      (performReading wState "one" "質問" "u1" (fun _ => 0) (fun _ => false)
        10 true c6Store).2 = c6Store ++ [row] ∧
      row.ts = 10 ∧ row.userId = "u1" ∧ row.question = "質問" ∧
      row.spread = "one" ∧
      (getReadingHistory
        (some (headerRow :: (performReading wState "one" "質問" "u1"
          (fun _ => 0) (fun _ => false) 10 true c6Store).2)) "u1" 5).head? =
        some row := by
  exact performReading_read_after_write wState "one" "質問" "u1" (fun _ => 0)
    (fun _ => false) 10 c6Store ["現状"] 5 (by decide) (by decide)
    (by decide) (by decide)

/-- C10: drawing cards never mutates the loaded catalog: the card list
and the spread table are identical before and after a
`selectRandomCards` call, because the draw works on a copy of
`this.cards`. -/
theorem selectRandomCards_leaves_catalog_unchanged (s : BotState)
    (count : Nat) (pick : Nat → Nat) (flip : Nat → Bool) :
    ((selectRandomCardsS s count pick flip).2).cards = s.cards ∧
    ((selectRandomCardsS s count pick flip).2).spreads = s.spreads :=
  ⟨rfl, rfl⟩

end Tarot
